import Mathlib

/-!
A shallow embedding of the RSA assignment repository (files miller_rabin.py and
rsa.py) and proofs about it.

Modelling conventions used throughout this file:

* Python integers are `Int`.  For a positive second argument Python's binary
  operators agree with Lean's: Python `x % m` is `Int.emod` and Python `x // m`
  is Lean's `/` on `Int` (both floor for positive `m`; the sources only ever
  divide or reduce by positive numbers, except that the even test `q % 2 == 0`
  is also applied to negative `q`, where `emod` again matches Python).
* Python's three-argument `pow(a, e, n)` (the arbitrary-precision modular
  exponentiation primitive assumed by the design) is modelled by `pyPow`,
  a square-and-multiply function, so that concrete runs are kernel-computable.
  `pyPow_eq` proves it equal to `a ^ e % n`.
* Python's modular inverse `pow(a, -1, n)` is modelled by `pyModInv` via an
  executable extended Euclid (`egcd`); `pyModInv_coprime_mul` proves the
  inverse property on the coprime inputs the sources use.
* Randomness: every call of `random.randint` is an oracle draw.  A run is
  parametrised by draw sequences (`ℕ → ℤ`) consumed left to right, one stream
  for the candidate draws of `generate_primes` and one for the witness draws
  of `miller_rabin.test`; quantifying over both streams covers every possible
  interleaved sequence of draws of the single process-wide generator.
* Nontermination: the `while` loops of the sources are modelled with an
  explicit fuel (or a `none`-producing guard where the loop provably hangs,
  see `factorLoop`); a result of `none` means the source runs forever.
* Exceptions (the `ValueError` raised by `random.randint` on an empty range,
  and the failing `assert` in `generate_keys`) are modelled with `Except`.
* The persisted key store `rsa_parameters.json` is modelled as an
  `Option RSAKeys` value passed in; the returned store state and a count of
  write (json.dump) calls are part of the result of `generateKeys`.
-/

/-- Modular exponentiation on naturals in radix 256, the model of Python's
three-argument `pow` on nonnegative arguments.  The first argument is fuel;
the fallback at fuel 0 is the mathematical value, so `powModNat_eq` holds for
every fuel, while any fuel at least `log256 e + 1` (in particular `e` itself)
makes the definition kernel-computable without touching the fallback, with
recursion depth small enough for the kernel to evaluate 1024-bit instances. -/
def powModNat : ℕ → ℕ → ℕ → ℕ → ℕ
  | 0, a, e, n => a ^ e % n
  | f + 1, a, e, n =>
    if e = 0 then 1 % n
    else powModNat f (a ^ 256 % n) (e / 256) n * a ^ (e % 256) % n

/-- Model of Python's `pow(a, e, n)` for `e ≥ 0`, `n > 0` (the only uses in
the sources): reduce the base, then square-and-multiply. -/
def pyPow (a e n : ℤ) : ℤ :=
  (powModNat e.toNat ((a % n).toNat) e.toNat n.toNat : ℕ)

/-- Executable extended Euclid on naturals: `egcd f a b = (g, x, y)` with
`a*x + b*y = g = gcd a b` whenever `b ≤ f`.  Models the extended-Euclid
computation behind Python's `pow(_, -1, _)`. -/
def egcd : ℕ → ℕ → ℕ → ℕ × ℤ × ℤ
  | 0, a, _ => (a, 1, 0)
  | f + 1, a, b =>
    if b = 0 then (a, 1, 0)
    else
      ((egcd f b (a % b)).1, (egcd f b (a % b)).2.2,
        (egcd f b (a % b)).2.1 - (a / b : ℕ) * (egcd f b (a % b)).2.2)

/-- Model of Python's `pow(a, -1, n)` for `a ≥ 0`, `n > 0`: the Bezout
coefficient of `a` reduced into `[0, n)`.  On the inputs the sources use the
operand is coprime to the modulus, so the `ValueError` branch of the Python
primitive is never taken; see `pyModInv_coprime_mul`. -/
def pyModInv (a n : ℤ) : ℤ :=
  (egcd (n.toNat + 1) a.toNat n.toNat).2.1 % n

lemma powModNat_eq (f : ℕ) : ∀ a e n : ℕ, powModNat f a e n = a ^ e % n := by
  induction f with
  | zero => intro a e n; rfl
  | succ f ih =>
    intro a e n
    show (if e = 0 then 1 % n
      else powModNat f (a ^ 256 % n) (e / 256) n * a ^ (e % 256) % n) = a ^ e % n
    by_cases he : e = 0
    · simp [he]
    · rw [if_neg he, ih]
      have hsq : (a ^ 256 % n) ^ (e / 256) % n = (a ^ 256) ^ (e / 256) % n :=
        (Nat.pow_mod (a ^ 256) (e / 256) n).symm
      rw [hsq]
      have h1 : (a ^ 256) ^ (e / 256) % n * a ^ (e % 256) % n
          = (a ^ 256) ^ (e / 256) * a ^ (e % 256) % n := by
        conv_lhs => rw [Nat.mul_mod]
        conv_rhs => rw [Nat.mul_mod]
        rw [Nat.mod_mod_of_dvd _ dvd_rfl]
      rw [h1, ← pow_mul, ← pow_add]
      have he2 : 256 * (e / 256) + e % 256 = e := Nat.div_add_mod e 256
      rw [he2]

lemma pyPow_eq (a e n : ℤ) (hn : 0 < n) :
    pyPow a e n = a ^ e.toNat % n := by
  unfold pyPow
  rw [powModNat_eq]
  have hmodnn : 0 ≤ a % n := Int.emod_nonneg a hn.ne'
  have h1 : (((a % n).toNat ^ e.toNat % n.toNat : ℕ) : ℤ)
      = ((a % n) ^ e.toNat) % n := by
    push_cast
    rw [Int.toNat_of_nonneg hmodnn, Int.toNat_of_nonneg hn.le]
  rw [h1]
  have hmod : a % n ≡ a [ZMOD n] := Int.emod_emod_of_dvd a dvd_rfl
  exact hmod.pow e.toNat

lemma egcd_spec (f : ℕ) : ∀ a b : ℕ, b ≤ f →
    (egcd f a b).1 = Nat.gcd a b ∧
    (a : ℤ) * (egcd f a b).2.1 + (b : ℤ) * (egcd f a b).2.2 = ((egcd f a b).1 : ℤ) := by
  induction f with
  | zero =>
    intro a b hb
    have hb0 : b = 0 := Nat.le_zero.mp hb
    subst hb0
    exact ⟨(Nat.gcd_zero_right a).symm, by simp [egcd]⟩
  | succ f ih =>
    intro a b hb
    by_cases hb0 : b = 0
    · subst hb0
      constructor
      · show a = Nat.gcd a 0
        exact (Nat.gcd_zero_right a).symm
      · show (a : ℤ) * 1 + (0 : ℕ) * 0 = (a : ℤ)
        simp
    · have hrec := ih b (a % b) (by
        have := Nat.mod_lt a (Nat.pos_of_ne_zero hb0)
        omega)
      obtain ⟨hg, hxy⟩ := hrec
      have hstep : egcd (f + 1) a b =
          ((egcd f b (a % b)).1, (egcd f b (a % b)).2.2,
            (egcd f b (a % b)).2.1 - (a / b : ℕ) * (egcd f b (a % b)).2.2) := by
        simp only [egcd, if_neg hb0]
      rw [hstep]
      set g := (egcd f b (a % b)).1 with hgdef
      set x := (egcd f b (a % b)).2.1 with hxdef
      set y := (egcd f b (a % b)).2.2 with hydef
      constructor
      · show g = Nat.gcd a b
        rw [hg, Nat.gcd_comm b (a % b), ← Nat.gcd_rec b a, Nat.gcd_comm b a]
      · show (a : ℤ) * y + (b : ℤ) * (x - (a / b : ℕ) * y) = (g : ℤ)
        have hdm : (b : ℤ) * ((a / b : ℕ) : ℤ) + ((a % b : ℕ) : ℤ) = (a : ℤ) := by
          exact_mod_cast congrArg (Nat.cast : ℕ → ℤ) (Nat.div_add_mod a b)
        linear_combination hxy - y * hdm

lemma pyModInv_nonneg (a n : ℤ) (hn : 0 < n) : 0 ≤ pyModInv a n :=
  Int.emod_nonneg _ hn.ne'

lemma pyModInv_lt (a n : ℤ) (hn : 0 < n) : pyModInv a n < n :=
  Int.emod_lt_of_pos _ hn

/-- The inverse property of `pyModInv` on coprime inputs:
`a * pyModInv a n ≡ 1 (mod n)`. -/
lemma pyModInv_coprime_mul (a n : ℤ) (ha : 0 ≤ a) (hn : 0 < n)
    (h : Int.gcd a n = 1) : a * pyModInv a n ≡ 1 [ZMOD n] := by
  have hbn : n.toNat ≤ n.toNat + 1 := Nat.le_succ _
  obtain ⟨hg, hxy⟩ := egcd_spec (n.toNat + 1) a.toNat n.toNat hbn
  have hga : (a.toNat : ℤ) = a := Int.toNat_of_nonneg ha
  have hgn : (n.toNat : ℤ) = n := Int.toNat_of_nonneg hn.le
  have hgcd1 : Nat.gcd a.toNat n.toNat = 1 := by
    have h1 : a.natAbs = a.toNat := by omega
    have h2 : n.natAbs = n.toNat := by omega
    rw [← h1, ← h2]
    exact h
  rw [hgcd1] at hg
  rw [hg] at hxy
  rw [hga, hgn] at hxy
  set x := (egcd (n.toNat + 1) a.toNat n.toNat).2.1 with hx
  set y := (egcd (n.toNat + 1) a.toNat n.toNat).2.2 with hy
  have hx' : x % n ≡ x [ZMOD n] := Int.emod_emod_of_dvd x dvd_rfl
  calc a * pyModInv a n = a * (x % n) := rfl
    _ ≡ a * x [ZMOD n] := hx'.mul_left a
    _ ≡ a * x + n * y [ZMOD n] := by
        have : (0 : ℤ) ≡ n * y [ZMOD n] := (Int.modEq_iff_dvd.mpr (by simp)).symm
        simpa using this.add_left (a * x)
    _ = 1 := by push_cast at hxy; linarith [hxy]

/-- The two possible verdict strings of `miller_rabin.test`:
"inconclusive" (the spec's probable_prime) and "composite" (the spec's
definitely_composite). -/
inductive Verdict where
  | inconclusive
  | composite
deriving DecidableEq, Repr

/-- The Python exceptions the modelled code can raise: the ValueError of
`random.randint` on an empty range, and the AssertionError of the failing
`assert` in `generate_keys`. -/
inductive PyErr where
  | valueError
  | assertionError
deriving DecidableEq, Repr

/-- Fueled halving loop of `miller_rabin.test` step 1
(`while q % 2 == 0: k += 1; q //= 2`), accumulating `k`.  `none` at fuel 0;
`factorLoop` supplies enough fuel whenever the source loop terminates, so
`none` there means the source hangs (which happens exactly at `q = 0`). -/
def factorLoopF : ℕ → ℕ → ℤ → Option (ℕ × ℤ)
  | 0, _, _ => none
  | f + 1, k, q =>
    if q = 0 then none
    else if q % 2 = 0 then factorLoopF f (k + 1) (q / 2) else some (k, q)

/-- The halving loop with enough fuel: `|q| + 1` iterations always suffice
because `|q|` at least halves each round, so the only `none` result is the
`q = 0` guard, where the source loop runs forever. -/
def factorLoop (k : ℕ) (q : ℤ) : Option (ℕ × ℤ) :=
  factorLoopF (q.natAbs + 1) k q

/-- One witness round of `miller_rabin.test(n)` with the drawn witness `a`
made explicit (the value `random.randint(2, n - 2)` returns).  The result is
`none` if the source hangs (n = 1), `some (.error .valueError)` if `randint`
raises on an empty range (n < 4, n ≠ 3, n ≠ 1), and a verdict otherwise.
Mirrors the source line by line: the n = 3 short-circuit, the halving loop,
the randint range check, step 3 (a^q mod n = 1), the step-4/5 loop over
j = 1 .. k-1, and the composite fall-through. -/
def millerRabinTest (n a : ℤ) : Option (Except PyErr Verdict) :=
  if n = 3 then some (Except.ok Verdict.inconclusive)
  else
    match factorLoop 0 (n - 1) with
    | none => none
    | some (k, q) =>
      if n - 2 < 2 then some (Except.error PyErr.valueError)
      else
        if pyPow a q n = 1 then some (Except.ok Verdict.inconclusive)
        else if (List.range' 1 (k - 1)).any
            (fun j => pyPow a (2 ^ j * q) n = n - 1) then
          some (Except.ok Verdict.inconclusive)
        else some (Except.ok Verdict.composite)

/-- `miller_rabin.test(n)` as a consumer of the witness-draw stream `rw`:
at index `iw` it draws `rw iw` as the witness and advances the index, except
that the `n = 3` short-circuit consumes no draw and the ValueError is raised
by the draw itself. -/
def millerRabinTestSeq (n : ℤ) (rw : ℕ → ℤ) (iw : ℕ) :
    Option (Except PyErr (Verdict × ℕ)) :=
  if n = 3 then some (Except.ok (Verdict.inconclusive, iw))
  else
    match millerRabinTest n (rw iw) with
    | none => none
    | some (Except.error e) => some (Except.error e)
    | some (Except.ok v) => some (Except.ok (v, iw + 1))

/-- The JSON record persisted in `rsa_parameters.json`:
`public = {e, n}` and `private = {d, p, q}`. -/
structure RSAKeys where
  e : ℤ
  n : ℤ
  d : ℤ
  p : ℤ
  q : ℤ
deriving DecidableEq, Repr

/-- Run the body `results = [test(n) for seven rounds]` of `generate_primes`:
`count` remaining rounds, threading the witness-draw index.  The Boolean of
the result is the check `"composite" in results`; all rounds run (the list
comprehension does not short-circuit). -/
def runTests (n : ℤ) (rw : ℕ → ℤ) : ℕ → ℕ → Option (Except PyErr (Bool × ℕ))
  | 0, iw => some (Except.ok (false, iw))
  | t + 1, iw =>
    match millerRabinTestSeq n rw iw with
    | none => none
    | some (Except.error err) => some (Except.error err)
    | some (Except.ok (v, iw2)) =>
      match runTests n rw t iw2 with
      | none => none
      | some (Except.error err) => some (Except.error err)
      | some (Except.ok (b, iw3)) =>
        some (Except.ok (decide (v = Verdict.composite) || b, iw3))

/-- The seven Miller-Rabin rounds `generate_primes` administers to one
candidate. -/
def sevenTests (n : ℤ) (rw : ℕ → ℤ) (iw : ℕ) : Option (Except PyErr (Bool × ℕ)) :=
  runTests n rw 7 iw

/-- The unbounded candidate loop of `generate_primes`, one fuel unit per
`while` iteration: draw a candidate from the candidate stream `rc`, skip even
ones, run seven witness rounds, fill `p` then `q` on success, stop when both
are set.  Result carries the pair and the next candidate/witness indices;
`none` is an out-of-fuel (non-terminating-prefix) result. -/
def genPrimesLoop (rc rw : ℕ → ℤ) :
    ℕ → ℕ → ℕ → Option ℤ → Option ℤ → Option (Except PyErr ((ℤ × ℤ) × ℕ × ℕ))
  | 0, _, _, _, _ => none
  | fuel + 1, ic, iw, op, oq =>
    let n := rc ic
    if n % 2 = 0 then genPrimesLoop rc rw fuel (ic + 1) iw op oq
    else
      match sevenTests n rw iw with
      | none => none
      | some (Except.error err) => some (Except.error err)
      | some (Except.ok (hasComposite, iw2)) =>
        let op2 := if hasComposite then op else if op.isNone then some n else op
        let oq2 := if hasComposite then oq
          else if op.isNone then oq else if oq.isNone then some n else oq
        match op2, oq2 with
        | some pv, some qv => some (Except.ok ((pv, qv), ic + 1, iw2))
        | op3, oq3 => genPrimesLoop rc rw fuel (ic + 1) iw2 op3 oq3

/-- `generate_primes()`: if the parameter file exists its `p`, `q` are
returned (no draws consumed), otherwise the candidate search runs. -/
def generatePrimes (store : Option RSAKeys) (rc rw : ℕ → ℤ) (fuel : ℕ) :
    Option (Except PyErr ((ℤ × ℤ) × ℕ × ℕ)) :=
  match store with
  | some ks => some (Except.ok ((ks.p, ks.q), 0, 0))
  | none => genPrimesLoop rc rw fuel 0 0 none none

/-- `generate_keys()`: ok-results are `(returned keys, store after the call,
number of json.dump calls)`.  With a persisted store the file is loaded
verbatim; otherwise the primes are generated, `n`, `phi(n)` are formed, the
fixed exponent `e = 65337` is validated by the `assert` (AssertionError on
failure), `d` is the modular inverse, and the keys are written once. -/
def generateKeys (store : Option RSAKeys) (rc rw : ℕ → ℤ) (fuel : ℕ) :
    Option (Except PyErr (RSAKeys × Option RSAKeys × ℕ)) :=
  match store with
  | some ks => some (Except.ok (ks, some ks, 0))
  | none =>
    match generatePrimes none rc rw fuel with
    | none => none
    | some (Except.error err) => some (Except.error err)
    | some (Except.ok ((p, q), _, _)) =>
      if 1 < (65337 : ℤ) ∧ 65337 < (p - 1) * (q - 1) ∧
          Int.gcd 65337 ((p - 1) * (q - 1)) = 1 then
        some (Except.ok
          (⟨65337, p * q, pyModInv 65337 ((p - 1) * (q - 1)), p, q⟩,
            some ⟨65337, p * q, pyModInv 65337 ((p - 1) * (q - 1)), p, q⟩, 1))
      else some (Except.error PyErr.assertionError)

/-- `crt_decrypt(c, d, p, q)`, line by line: `dp = d % (p-1)`,
`dq = d % (q-1)`, `q_inv = pow(q, -1, p)`, `m1 = pow(c, dp, p)`,
`m2 = pow(c, dq, q)`, `h = (q_inv * (m1 - m2)) % p`, `m = m2 + h * q`. -/
def crtDecrypt (c d p q : ℤ) : ℤ :=
  let dp := d % (p - 1)
  let dq := d % (q - 1)
  let q_inv := pyModInv q p
  let m1 := pyPow c dp p
  let m2 := pyPow c dq q
  let h := (q_inv * (m1 - m2)) % p
  m2 + h * q

/-- A concrete 1024-bit odd value (2^1023 + 1155, congruent 3 mod 4) inside
the candidate range of `generate_primes` that survives a Miller-Rabin round
with witness 4: its odd part q of n - 1 satisfies 4^q mod n = 1. -/
def bigCandidate : ℤ := 89884656743115795386465259539451236680898848947115328636715040578866337902750481566354238661203768010560056939935696678829394884407208311246423715319737062188883946712432742638151109800623047059726541476042502884419075341171231440736956555270413618581675255342293149119973622969239858152417678164812112069763

/-- Candidate-draw sequence that repeats `bigCandidate` on every draw; every
draw is inside the `randint(2^1023 + 1, 2^1024 - 1)` range. -/
def rcRepeat : ℕ → ℤ := fun _ => bigCandidate

/-- Witness-draw sequence that always draws 4 (a valid witness for every
candidate of 1024 bits). -/
def rwRepeat : ℕ → ℤ := fun _ => 4

/-- Candidate draws 7, then 11: a run whose primes give phi = 60 < 65337,
so the public-exponent assert fails. -/
def rcSmallPhi : ℕ → ℤ := fun i => if i = 0 then 7 else 11

/-- Witness draws for the 7-then-11 run: witness 2 for candidate 7
(2^3 mod 7 = 1) and witness 3 for candidate 11 (3^5 mod 11 = 1). -/
def rwSmallPhi : ℕ → ℤ := fun i => if i < 7 then 2 else 3

/-- Candidate draws 563, then 569: primes whose phi = 319216 exceeds 65337
and is coprime to it, so key generation succeeds. -/
def rcOkPhi : ℕ → ℤ := fun i => if i = 0 then 563 else 569

/-- Witness draws for the 563-then-569 run: witness 4 for 563
(4^281 = 2^562 = 1 mod 563) and witness 256 for 569 (256^71 = 2^568 = 1
mod 569). -/
def rwOkPhi : ℕ → ℤ := fun i => if i < 7 then 4 else 256

/-- The textbook toy key pair of the spec (p = 61, q = 53, e = 17,
d = 2753), used as a concrete persisted store content. -/
def toyKeys : RSAKeys := ⟨17, 3233, 2753, 61, 53⟩

/-- What `generate_primes` guarantees about each returned value on a run
whose candidate draws respect the randint range: odd, a 1024-bit integer in
`[2^1023 + 1, 2^1024 - 1]`, and there is a witness-stream position from which
its seven Miller-Rabin rounds all ran with no composite verdict. -/
def GoodPrime (rw : ℕ → ℤ) (x : ℤ) : Prop :=
  x % 2 = 1 ∧ 2 ^ 1023 + 1 ≤ x ∧ x ≤ 2 ^ 1024 - 1 ∧
    ∃ i j, sevenTests x rw i = some (Except.ok (false, j))

lemma half_natAbs_lt (q : ℤ) (h0 : q ≠ 0) (h2 : q % 2 = 0) :
    (q / 2).natAbs < q.natAbs := by
  obtain ⟨m, rfl⟩ := Int.dvd_of_emod_eq_zero h2
  rw [Int.mul_ediv_cancel_left m (by norm_num)]
  have hm : m ≠ 0 := by rintro rfl; exact h0 (by ring)
  omega

lemma factorLoopF_congr : ∀ f g k : ℕ, ∀ q : ℤ, q.natAbs < f → q.natAbs < g →
    factorLoopF f k q = factorLoopF g k q := by
  intro f
  induction f with
  | zero => intro g k q hf; omega
  | succ f ih =>
    intro g k q hf hg
    match g, hg with
    | g + 1, hg =>
      show (if q = 0 then none else if q % 2 = 0 then
          factorLoopF f (k + 1) (q / 2) else some (k, q)) =
        (if q = 0 then none else if q % 2 = 0 then
          factorLoopF g (k + 1) (q / 2) else some (k, q))
      by_cases h0 : q = 0
      · simp [h0]
      · rw [if_neg h0, if_neg h0]
        by_cases h2 : q % 2 = 0
        · rw [if_pos h2, if_pos h2]
          have hlt := half_natAbs_lt q h0 h2
          exact ih g (k + 1) (q / 2) (by omega) (by omega)
        · rw [if_neg h2, if_neg h2]

lemma factorLoop_step (k : ℕ) (q : ℤ) :
    factorLoop k q = if q = 0 then none
      else if q % 2 = 0 then factorLoop (k + 1) (q / 2) else some (k, q) := by
  show factorLoopF (q.natAbs + 1) k q = _
  by_cases h0 : q = 0
  · subst h0; rfl
  · by_cases h2 : q % 2 = 0
    · rw [if_neg h0, if_pos h2]
      show (if q = 0 then none else if q % 2 = 0 then
          factorLoopF q.natAbs (k + 1) (q / 2) else some (k, q)) = _
      rw [if_neg h0, if_pos h2]
      have hlt := half_natAbs_lt q h0 h2
      exact factorLoopF_congr q.natAbs ((q / 2).natAbs + 1) (k + 1) (q / 2)
        (by omega) (by omega)
    · rw [if_neg h0, if_neg h2]
      show (if q = 0 then none else if q % 2 = 0 then
          factorLoopF q.natAbs (k + 1) (q / 2) else some (k, q)) = some (k, q)
      rw [if_neg h0, if_neg h2]

lemma odd_ne_zero (od : ℤ) (hod : od % 2 = 1) : od ≠ 0 := by
  rintro rfl; simp at hod

/-- The halving loop factors out the powers of two: on input `2^v * od` with
`od` odd it returns `(k0 + v, od)`. -/
lemma factorLoop_spec (v : ℕ) : ∀ (k0 : ℕ) (od : ℤ), od % 2 = 1 →
    factorLoop k0 (2 ^ v * od) = some (k0 + v, od) := by
  induction v with
  | zero =>
    intro k0 od hod
    rw [factorLoop_step]
    have h0 : (2 : ℤ) ^ 0 * od = od := by ring
    rw [h0, if_neg (odd_ne_zero od hod)]
    rw [if_neg (by omega : ¬od % 2 = 0)]
    simp
  | succ v ih =>
    intro k0 od hod
    rw [factorLoop_step]
    have hne : (2 : ℤ) ^ (v + 1) * od ≠ 0 :=
      mul_ne_zero (by positivity) (odd_ne_zero od hod)
    rw [if_neg hne]
    have heven : (2 : ℤ) ^ (v + 1) * od % 2 = 0 :=
      Int.emod_eq_zero_of_dvd
        (Dvd.dvd.mul_right (dvd_pow_self 2 (Nat.succ_ne_zero v)) od)
    rw [if_pos heven]
    have hdiv : (2 : ℤ) ^ (v + 1) * od / 2 = 2 ^ v * od := by
      have : (2 : ℤ) ^ (v + 1) * od = 2 * (2 ^ v * od) := by ring
      rw [this, Int.mul_ediv_cancel_left _ (by norm_num)]
    rw [hdiv, ih (k0 + 1) od hod]
    have harith : k0 + 1 + v = k0 + (v + 1) := by omega
    rw [harith]

/-- The halving loop terminates (with a `some` result) on every nonzero
input; the `q = 0` input, reached exactly from `test(1)`, is the only one on
which the source loop hangs. -/
lemma factorLoop_isSome : ∀ (m : ℕ) (k : ℕ) (q : ℤ), q.natAbs ≤ m → q ≠ 0 →
    ∃ k2 q2, factorLoop k q = some (k2, q2) := by
  intro m
  induction m with
  | zero =>
    intro k q hm h0
    omega
  | succ m ih =>
    intro k q hm h0
    rw [factorLoop_step, if_neg h0]
    by_cases h2 : q % 2 = 0
    · rw [if_pos h2]
      have hlt := half_natAbs_lt q h0 h2
      have hne : q / 2 ≠ 0 := by
        intro h
        obtain ⟨w, rfl⟩ := Int.dvd_of_emod_eq_zero h2
        rw [Int.mul_ediv_cancel_left w (by norm_num)] at h
        exact h0 (by rw [h]; ring)
      exact ih (k + 1) (q / 2) (by omega) hne
    · rw [if_neg h2]
      exact ⟨k, q, rfl⟩

lemma zmodCast_emod (x N : ℤ) (m : ℕ) (h : (m : ℤ) ∣ N) :
    ((x % N : ℤ) : ZMod m) = (x : ZMod m) :=
  (ZMod.intCast_eq_intCast_iff _ _ _).mpr (Int.emod_emod_of_dvd x h)

/-- In `ZMod P` for a prime `P`, powers agree whenever the exponents are
positive and congruent mod `P - 1` (Fermat plus the zero case). -/
lemma pow_congr_mod_prime (P : ℕ) (hp : P.Prime) (c : ℤ) (s t : ℕ)
    (hs : 1 ≤ s) (ht : 1 ≤ t) (hst : s % (P - 1) = t % (P - 1)) :
    (c : ZMod P) ^ s = (c : ZMod P) ^ t := by
  haveI := Fact.mk hp
  by_cases hx : (c : ZMod P) = 0
  · rw [hx, zero_pow (by omega : s ≠ 0), zero_pow (by omega : t ≠ 0)]
  · have h1 : (c : ZMod P) ^ (P - 1) = 1 := ZMod.pow_card_sub_one_eq_one hx
    have hgen : ∀ u : ℕ, (c : ZMod P) ^ u = (c : ZMod P) ^ (u % (P - 1)) := by
      intro u
      conv_lhs => rw [← Nat.div_add_mod u (P - 1)]
      rw [pow_add, pow_mul, h1, one_pow, one_mul]
    rw [hgen s, hgen t, hst]

lemma int_eq_of_modEq_bounds (N a b : ℤ) (ha0 : 0 ≤ a) (haN : a < N)
    (hb0 : 0 ≤ b) (hbN : b < N) (h : a ≡ b [ZMOD N]) : a = b := by
  have h2 : a % N = b % N := h
  rwa [Int.emod_eq_of_lt ha0 haN, Int.emod_eq_of_lt hb0 hbN] at h2

/-- Chinese-remainder glue: two integers congruent modulo each of two
distinct primes are congruent modulo the product. -/
lemma modEq_mul_of_prime_pair (P Q : ℕ) (hp : P.Prime) (hq : Q.Prime)
    (hne : P ≠ Q) (a b : ℤ) (h1 : (a : ZMod P) = (b : ZMod P))
    (h2 : (a : ZMod Q) = (b : ZMod Q)) : a ≡ b [ZMOD (P : ℤ) * Q] := by
  have hco : Nat.Coprime P Q := (Nat.coprime_primes hp hq).mpr hne
  have m1 : a ≡ b [ZMOD (P : ℤ)] := (ZMod.intCast_eq_intCast_iff _ _ _).mp h1
  have m2 : a ≡ b [ZMOD (Q : ℤ)] := (ZMod.intCast_eq_intCast_iff _ _ _).mp h2
  refine (Int.modEq_and_modEq_iff_modEq_mul ?_).mp ⟨m1, m2⟩
  simpa using hco

lemma toNat_mod_eq (x : ℤ) (hx : 0 ≤ x) (m : ℕ) :
    x.toNat % m = (x % (m : ℤ)).toNat := by
  by_cases hm : m = 0
  · subst hm
    simp
  · have hm0 : ((m : ℤ)) ≠ 0 := by exact_mod_cast hm
    have h1 : ((x.toNat % m : ℕ) : ℤ) = x % m := by
      push_cast
      rw [Int.toNat_of_nonneg hx]
    have h2 : (((x % (m : ℤ)).toNat : ℕ) : ℤ) = x % m :=
      Int.toNat_of_nonneg (Int.emod_nonneg x hm0)
    exact_mod_cast h1.trans h2.symm

lemma pos_of_inverse (phi d e : ℤ) (hphi : 1 < phi) (hd : 0 ≤ d)
    (hed : e * d ≡ 1 [ZMOD phi]) : 1 ≤ d := by
  by_contra h
  have hd0 : d = 0 := by omega
  subst hd0
  have h2 : (0 : ℤ) ≡ 1 [ZMOD phi] := by simpa using hed
  have h3 : phi ∣ 1 := by simpa using h2.dvd
  have := Int.le_of_dvd one_pos h3
  omega

lemma emod_pos_of_inverse (phi d e : ℤ) (hphi : 1 < phi) (_hd : 0 ≤ d)
    (hed : e * d ≡ 1 [ZMOD phi]) : 1 ≤ d % phi := by
  have h0 : 0 ≤ d % phi := Int.emod_nonneg d (by omega)
  by_contra h
  have hdp0 : d % phi = 0 := by omega
  have hdvd : phi ∣ d := Int.dvd_of_emod_eq_zero hdp0
  have h1 : e * d ≡ 0 [ZMOD phi] := Int.modEq_zero_iff_dvd.mpr (hdvd.mul_left e)
  have h2 : (0 : ℤ) ≡ 1 [ZMOD phi] := h1.symm.trans hed
  have h3 : phi ∣ 1 := by simpa using h2.dvd
  have := Int.le_of_dvd one_pos h3
  omega

/-- Exponent bookkeeping: for `0 ≤ d` the natural-number exponents
`(d % (P-1)).toNat` and `d.toNat` are congruent mod `P - 1`. -/
lemma exponent_mod_eq (P : ℕ) (hP : 2 ≤ P) (d : ℤ) (hd : 0 ≤ d)
    (hlt : d % ((P : ℤ) - 1) < (P : ℤ) - 1) :
    (d % ((P : ℤ) - 1)).toNat % (P - 1) = d.toNat % (P - 1) := by
  have hcast : ((P - 1 : ℕ) : ℤ) = (P : ℤ) - 1 := by
    rw [Nat.cast_sub (by omega : 1 ≤ P)]
    simp
  have hne : ((P : ℤ) - 1) ≠ 0 := by
    have : (2 : ℤ) ≤ (P : ℤ) := by exact_mod_cast hP
    omega
  have hnn : 0 ≤ d % ((P : ℤ) - 1) := Int.emod_nonneg d hne
  have h1 : d.toNat % (P - 1) = (d % ((P : ℤ) - 1)).toNat := by
    rw [toNat_mod_eq d hd (P - 1), hcast]
  have h2 : (d % ((P : ℤ) - 1)).toNat < P - 1 := by omega
  rw [h1, Nat.mod_eq_of_lt h2]

/-- Core CRT correctness: for distinct odd primes `P`, `Q`, a private
exponent `d` that is invertible mod `(P-1)(Q-1)` (witnessed by `e`), and any
`c` in `[0, P*Q)`, the CRT recombination computed by `crt_decrypt` equals
direct decryption `pow(c, d, P*Q)`. -/
lemma crt_core (P Q : ℕ) (hp : Nat.Prime P) (hq : Nat.Prime Q)
    (hP2 : 2 < P) (hQ2 : 2 < Q) (hne : P ≠ Q) (e d c : ℤ) (hd : 0 ≤ d)
    (hed : e * d ≡ 1 [ZMOD ((P : ℤ) - 1) * ((Q : ℤ) - 1)])
    (_hc0 : 0 ≤ c) (_hcN : c < (P : ℤ) * Q) :
    crtDecrypt c d (P : ℤ) (Q : ℤ) = pyPow c d ((P : ℤ) * (Q : ℤ)) := by
  have hPz : (2 : ℤ) < (P : ℤ) := by exact_mod_cast hP2
  have hQz : (2 : ℤ) < (Q : ℤ) := by exact_mod_cast hQ2
  have hphiP : (1 : ℤ) < (P : ℤ) - 1 := by omega
  have hphiQ : (1 : ℤ) < (Q : ℤ) - 1 := by omega
  have hphi : (1 : ℤ) < ((P : ℤ) - 1) * ((Q : ℤ) - 1) := by nlinarith
  have hNpos : (0 : ℤ) < (P : ℤ) * Q := by nlinarith
  have hedP : e * d ≡ 1 [ZMOD (P : ℤ) - 1] := hed.of_dvd (dvd_mul_right _ _)
  have hedQ : e * d ≡ 1 [ZMOD (Q : ℤ) - 1] := hed.of_dvd (dvd_mul_left _ _)
  have hd1 : 1 ≤ d := pos_of_inverse _ d e hphi hd hed
  have hdP1 : 1 ≤ d % ((P : ℤ) - 1) := emod_pos_of_inverse _ d e hphiP hd hedP
  have hdQ1 : 1 ≤ d % ((Q : ℤ) - 1) := emod_pos_of_inverse _ d e hphiQ hd hedQ
  have hdPlt : d % ((P : ℤ) - 1) < (P : ℤ) - 1 := Int.emod_lt_of_pos d (by omega)
  have hdQlt : d % ((Q : ℤ) - 1) < (Q : ℤ) - 1 := Int.emod_lt_of_pos d (by omega)
  set dp := d % ((P : ℤ) - 1) with hdpdef
  set dq := d % ((Q : ℤ) - 1) with hdqdef
  set qinv := pyModInv (Q : ℤ) (P : ℤ) with hqinvdef
  set m1 := pyPow c dp (P : ℤ) with hm1def
  set m2 := pyPow c dq (Q : ℤ) with hm2def
  set hh := (qinv * (m1 - m2)) % (P : ℤ) with hhdef
  have hunfold : crtDecrypt c d (P : ℤ) (Q : ℤ) = m2 + hh * (Q : ℤ) := rfl
  have hm1 : m1 = c ^ dp.toNat % (P : ℤ) := pyPow_eq c dp (P : ℤ) (by omega)
  have hm2 : m2 = c ^ dq.toNat % (Q : ℤ) := pyPow_eq c dq (Q : ℤ) (by omega)
  have hM : pyPow c d ((P : ℤ) * Q) = c ^ d.toNat % ((P : ℤ) * Q) :=
    pyPow_eq c d _ hNpos
  have hm2nn : 0 ≤ m2 := by rw [hm2]; exact Int.emod_nonneg _ (by omega)
  have hm2lt : m2 < (Q : ℤ) := by rw [hm2]; exact Int.emod_lt_of_pos _ (by omega)
  have hhnn : 0 ≤ hh := Int.emod_nonneg _ (by omega)
  have hhlt : hh < (P : ℤ) := Int.emod_lt_of_pos _ (by omega)
  have hL0 : 0 ≤ m2 + hh * (Q : ℤ) := by nlinarith
  have hLN : m2 + hh * (Q : ℤ) < (P : ℤ) * Q := by nlinarith
  have hM0 : 0 ≤ pyPow c d ((P : ℤ) * Q) := by
    rw [hM]; exact Int.emod_nonneg _ hNpos.ne'
  have hMN : pyPow c d ((P : ℤ) * Q) < (P : ℤ) * Q := by
    rw [hM]; exact Int.emod_lt_of_pos _ hNpos
  have hQP : Int.gcd (Q : ℤ) (P : ℤ) = 1 := by
    have hco : Nat.Coprime Q P := (Nat.coprime_primes hq hp).mpr (Ne.symm hne)
    simpa using hco
  have hqinv1 : (Q : ℤ) * qinv ≡ 1 [ZMOD (P : ℤ)] :=
    pyModInv_coprime_mul (Q : ℤ) (P : ℤ) (by omega) (by omega) hQP
  have hqinvZ : (Q : ZMod P) * (qinv : ZMod P) = 1 := by
    have h1 : (((Q : ℤ) * qinv : ℤ) : ZMod P) = ((1 : ℤ) : ZMod P) :=
      (ZMod.intCast_eq_intCast_iff _ _ _).mpr hqinv1
    push_cast at h1
    exact h1
  have hMP : ((pyPow c d ((P : ℤ) * Q) : ℤ) : ZMod P) = (c : ZMod P) ^ d.toNat := by
    rw [hM, zmodCast_emod _ _ _ (dvd_mul_right _ _)]
    push_cast
    rfl
  have hMQ : ((pyPow c d ((P : ℤ) * Q) : ℤ) : ZMod Q) = (c : ZMod Q) ^ d.toNat := by
    rw [hM, zmodCast_emod _ _ _ (dvd_mul_left _ _)]
    push_cast
    rfl
  have hm1P : ((m1 : ℤ) : ZMod P) = (c : ZMod P) ^ d.toNat := by
    rw [hm1, zmodCast_emod _ _ _ dvd_rfl]
    push_cast
    exact pow_congr_mod_prime P hp c dp.toNat d.toNat (by omega) (by omega)
      (exponent_mod_eq P (by omega) d hd hdPlt)
  have hm2Q : ((m2 : ℤ) : ZMod Q) = (c : ZMod Q) ^ d.toNat := by
    rw [hm2, zmodCast_emod _ _ _ dvd_rfl]
    push_cast
    exact pow_congr_mod_prime Q hq c dq.toNat d.toNat (by omega) (by omega)
      (exponent_mod_eq Q (by omega) d hd hdQlt)
  have hhP : ((hh : ℤ) : ZMod P) = (qinv : ZMod P) * ((m1 : ZMod P) - (m2 : ZMod P)) := by
    rw [hhdef, zmodCast_emod _ _ _ dvd_rfl]
    push_cast
    ring
  have hmodP : ((m2 + hh * (Q : ℤ) : ℤ) : ZMod P)
      = ((pyPow c d ((P : ℤ) * Q) : ℤ) : ZMod P) := by
    rw [hMP]
    push_cast
    rw [hhP]
    calc (m2 : ZMod P) + (qinv : ZMod P) * ((m1 : ZMod P) - (m2 : ZMod P)) * (Q : ZMod P)
        = (m2 : ZMod P) + ((m1 : ZMod P) - (m2 : ZMod P)) * ((Q : ZMod P) * (qinv : ZMod P)) := by
          ring
      _ = (m1 : ZMod P) := by rw [hqinvZ]; ring
      _ = (c : ZMod P) ^ d.toNat := hm1P
  have hmodQ : ((m2 + hh * (Q : ℤ) : ℤ) : ZMod Q)
      = ((pyPow c d ((P : ℤ) * Q) : ℤ) : ZMod Q) := by
    rw [hMQ]
    push_cast
    have hQ0 : (Q : ZMod Q) = 0 := ZMod.natCast_self Q
    rw [hQ0, mul_zero, add_zero]
    exact hm2Q
  rw [hunfold]
  exact int_eq_of_modEq_bounds ((P : ℤ) * Q) _ _ hL0 hLN hM0 hMN
    (modEq_mul_of_prime_pair P Q hp hq hne _ _ hmodP hmodQ)

lemma toNat_modEq (x y : ℤ) (hx : 0 ≤ x) (hy : 0 ≤ y) (m : ℕ)
    (h : x ≡ y [ZMOD (m : ℤ)]) : x.toNat % m = y.toNat % m := by
  have h2 : x % (m : ℤ) = y % (m : ℤ) := h
  rw [toNat_mod_eq x hx m, toNat_mod_eq y hy m, h2]

lemma toNat_mul_of_nonneg (e d : ℤ) (he : 0 ≤ e) (hd : 0 ≤ d) :
    (e * d).toNat = e.toNat * d.toNat := by
  have h1 : ((e.toNat * d.toNat : ℕ) : ℤ) = e * d := by
    rw [Nat.cast_mul, Int.toNat_of_nonneg he, Int.toNat_of_nonneg hd]
  rw [← h1, Int.toNat_natCast]

/-- One prime side of the RSA round trip: raising to `e` then `d` fixes
every residue mod `P` when `e * d ≡ 1 (mod P - 1)`. -/
lemma rsa_pow_side (P : ℕ) (hp : Nat.Prime P) (e d m : ℤ)
    (he1 : 1 ≤ e) (hd1 : 1 ≤ d)
    (hedP : e * d ≡ 1 [ZMOD (P : ℤ) - 1]) :
    ((m : ZMod P) ^ e.toNat) ^ d.toNat = (m : ZMod P) := by
  have hP1 : 1 ≤ P := hp.one_lt.le
  have hcast : ((P - 1 : ℕ) : ℤ) = (P : ℤ) - 1 := by
    rw [Nat.cast_sub hP1]
    simp
  have hedP2 : e * d ≡ 1 [ZMOD ((P - 1 : ℕ) : ℤ)] := by rwa [hcast]
  have hst : (e * d).toNat % (P - 1) = (1 : ℤ).toNat % (P - 1) :=
    toNat_modEq (e * d) 1 (by nlinarith) (by norm_num) (P - 1) hedP2
  have hed1 : 1 ≤ (e * d).toNat := by
    have : 1 ≤ e * d := by nlinarith
    omega
  rw [← pow_mul, ← toNat_mul_of_nonneg e d (by omega) (by omega)]
  have hcongr := pow_congr_mod_prime P hp m (e * d).toNat (1 : ℤ).toNat
    hed1 (by norm_num) hst
  simpa using hcongr

/-- RSA round trip in the reduced form the sources compute: for distinct
primes `P`, `Q` and exponents with `e * d ≡ 1 (mod (P-1)(Q-1))`,
`pow(pow(m, e, N), d, N) = m` for every `m` in `[0, N)`, `N = P * Q`. -/
lemma rsa_core (P Q : ℕ) (hp : Nat.Prime P) (hq : Nat.Prime Q) (hne : P ≠ Q)
    (e d m : ℤ) (he : 0 ≤ e) (hd : 0 ≤ d)
    (hed : e * d ≡ 1 [ZMOD ((P : ℤ) - 1) * ((Q : ℤ) - 1)])
    (hm0 : 0 ≤ m) (hmN : m < (P : ℤ) * Q) :
    pyPow (pyPow m e ((P : ℤ) * (Q : ℤ))) d ((P : ℤ) * (Q : ℤ)) = m := by
  have hP2 : 2 ≤ P := hp.two_le
  have hQ2 : 2 ≤ Q := hq.two_le
  have hPz : (2 : ℤ) ≤ (P : ℤ) := by exact_mod_cast hP2
  have hQz : (2 : ℤ) ≤ (Q : ℤ) := by exact_mod_cast hQ2
  have hphi : (1 : ℤ) < ((P : ℤ) - 1) * ((Q : ℤ) - 1) := by
    have h3 : 3 ≤ P ∨ 3 ≤ Q := by
      rcases Nat.lt_or_ge P 3 with h | h
      · right
        have : P = 2 := by omega
        omega
      · left; exact h
    rcases h3 with h | h
    · have : (3 : ℤ) ≤ (P : ℤ) := by exact_mod_cast h
      nlinarith
    · have : (3 : ℤ) ≤ (Q : ℤ) := by exact_mod_cast h
      nlinarith
  have hNpos : (0 : ℤ) < (P : ℤ) * Q := by nlinarith
  have hedQ : e * d ≡ 1 [ZMOD (Q : ℤ) - 1] := hed.of_dvd (dvd_mul_left _ _)
  have hedP : e * d ≡ 1 [ZMOD (P : ℤ) - 1] := hed.of_dvd (dvd_mul_right _ _)
  have hd1 : 1 ≤ d := pos_of_inverse _ d e hphi hd hed
  have he1 : 1 ≤ e := pos_of_inverse _ e d hphi he (by rwa [mul_comm d e])
  have hinner : pyPow m e ((P : ℤ) * Q) = m ^ e.toNat % ((P : ℤ) * Q) :=
    pyPow_eq m e _ hNpos
  have houter : pyPow (pyPow m e ((P : ℤ) * Q)) d ((P : ℤ) * Q)
      = (pyPow m e ((P : ℤ) * Q)) ^ d.toNat % ((P : ℤ) * Q) :=
    pyPow_eq _ d _ hNpos
  have hON : pyPow (pyPow m e ((P : ℤ) * Q)) d ((P : ℤ) * Q) < (P : ℤ) * Q := by
    rw [houter]; exact Int.emod_lt_of_pos _ hNpos
  have hO0 : 0 ≤ pyPow (pyPow m e ((P : ℤ) * Q)) d ((P : ℤ) * Q) := by
    rw [houter]; exact Int.emod_nonneg _ hNpos.ne'
  have hsideP : ((pyPow (pyPow m e ((P : ℤ) * Q)) d ((P : ℤ) * Q) : ℤ) : ZMod P)
      = (m : ZMod P) := by
    rw [houter, zmodCast_emod _ _ _ (dvd_mul_right _ _)]
    push_cast
    have hinnerP : ((pyPow m e ((P : ℤ) * Q) : ℤ) : ZMod P) = (m : ZMod P) ^ e.toNat := by
      rw [hinner, zmodCast_emod _ _ _ (dvd_mul_right _ _)]
      push_cast
      rfl
    rw [hinnerP]
    exact rsa_pow_side P hp e d m he1 hd1 hedP
  have hsideQ : ((pyPow (pyPow m e ((P : ℤ) * Q)) d ((P : ℤ) * Q) : ℤ) : ZMod Q)
      = (m : ZMod Q) := by
    rw [houter, zmodCast_emod _ _ _ (dvd_mul_left _ _)]
    push_cast
    have hinnerQ : ((pyPow m e ((P : ℤ) * Q) : ℤ) : ZMod Q) = (m : ZMod Q) ^ e.toNat := by
      rw [hinner, zmodCast_emod _ _ _ (dvd_mul_left _ _)]
      push_cast
      rfl
    rw [hinnerQ]
    exact rsa_pow_side Q hq e d m he1 hd1 hedQ
  exact int_eq_of_modEq_bounds ((P : ℤ) * Q) _ _ hO0 hON hm0 hmN
    (modEq_mul_of_prime_pair P Q hp hq hne _ _ hsideP hsideQ)

/-- Invariant of the candidate loop: on a range-respecting candidate stream,
any pair it returns consists of `GoodPrime` values. -/
lemma genPrimesLoop_good (rc rw : ℕ → ℤ)
    (hrc : ∀ i, 2 ^ 1023 + 1 ≤ rc i ∧ rc i ≤ 2 ^ 1024 - 1) :
    ∀ (fuel ic iw : ℕ) (op oq : Option ℤ) (p q : ℤ) (jc jw : ℕ),
      (∀ x, op = some x → GoodPrime rw x) →
      (∀ x, oq = some x → GoodPrime rw x) →
      genPrimesLoop rc rw fuel ic iw op oq = some (Except.ok ((p, q), jc, jw)) →
      GoodPrime rw p ∧ GoodPrime rw q := by
  intro fuel
  induction fuel with
  | zero =>
    intro ic iw op oq p q jc jw hop hoq h
    exact absurd h (by simp [genPrimesLoop])
  | succ fuel ih =>
    intro ic iw op oq p q jc jw hop hoq h
    simp only [genPrimesLoop] at h
    by_cases hev : rc ic % 2 = 0
    · rw [if_pos hev] at h
      exact ih (ic + 1) iw op oq p q jc jw hop hoq h
    · rw [if_neg hev] at h
      cases hst : sevenTests (rc ic) rw iw with
      | none => rw [hst] at h; exact absurd h (by simp)
      | some res =>
        rw [hst] at h
        cases res with
        | error err => exact absurd h (by simp)
        | ok pr =>
          obtain ⟨b, iw2⟩ := pr
          have hodd : rc ic % 2 = 1 := by
            rcases Int.emod_two_eq_zero_or_one (rc ic) with h2 | h2
            · exact absurd h2 hev
            · exact h2
          have hgood : b = false → GoodPrime rw (rc ic) := by
            intro hb
            exact ⟨hodd, (hrc ic).1, (hrc ic).2, iw, iw2, by rw [← hb]; exact hst⟩
          cases b with
          | true =>
            cases op with
            | none =>
              cases oq with
              | none =>
                simp at h
                exact ih (ic + 1) iw2 none none p q jc jw hop hoq h
              | some bq =>
                simp at h
                exact ih (ic + 1) iw2 none (some bq) p q jc jw hop hoq h
            | some ap =>
              cases oq with
              | none =>
                simp at h
                exact ih (ic + 1) iw2 (some ap) none p q jc jw hop hoq h
              | some bq =>
                simp at h
                obtain ⟨⟨hp1, hq1⟩, _⟩ := h
                exact ⟨hp1 ▸ hop ap rfl, hq1 ▸ hoq bq rfl⟩
          | false =>
            cases op with
            | none =>
              cases oq with
              | none =>
                simp at h
                refine ih (ic + 1) iw2 (some (rc ic)) none p q jc jw ?_ hoq h
                intro x hx
                cases hx
                exact hgood rfl
              | some bq =>
                simp at h
                obtain ⟨⟨hp1, hq1⟩, _⟩ := h
                exact ⟨hp1 ▸ hgood rfl, hq1 ▸ hoq bq rfl⟩
            | some ap =>
              cases oq with
              | none =>
                simp at h
                obtain ⟨⟨hp1, hq1⟩, _⟩ := h
                exact ⟨hp1 ▸ hop ap rfl, hq1 ▸ hgood rfl⟩
              | some bq =>
                simp at h
                obtain ⟨⟨hp1, hq1⟩, _⟩ := h
                exact ⟨hp1 ▸ hop ap rfl, hq1 ▸ hoq bq rfl⟩

/-- Anatomy of a successful fresh run of `generate_keys` (no persisted
store): the primes come from the candidate loop, the exponent check passed,
`d` is the computed inverse, the full record is stored, and exactly one
write happened. -/
lemma generateKeys_fresh (rc rw : ℕ → ℤ) (fuel : ℕ) (ks : RSAKeys)
    (st : Option RSAKeys) (wr : ℕ)
    (h : generateKeys none rc rw fuel = some (Except.ok (ks, st, wr))) :
    ∃ p q ic iw,
      genPrimesLoop rc rw fuel 0 0 none none = some (Except.ok ((p, q), ic, iw)) ∧
      ks = ⟨65337, p * q, pyModInv 65337 ((p - 1) * (q - 1)), p, q⟩ ∧
      st = some ks ∧ wr = 1 ∧
      65337 < (p - 1) * (q - 1) ∧ Int.gcd 65337 ((p - 1) * (q - 1)) = 1 := by
  unfold generateKeys generatePrimes at h
  cases hgen : genPrimesLoop rc rw fuel 0 0 none none with
  | none => rw [hgen] at h; exact absurd h (by simp)
  | some res =>
    rw [hgen] at h
    cases res with
    | error err => exact absurd h (by simp)
    | ok pr =>
      obtain ⟨⟨p, q⟩, ic, iw⟩ := pr
      simp at h
      by_cases hcond : 65337 < (p - 1) * (q - 1) ∧
          Int.gcd 65337 ((p - 1) * (q - 1)) = 1
      · rw [if_pos hcond] at h
        simp only [Option.some.injEq, Except.ok.injEq, Prod.mk.injEq] at h
        obtain ⟨hks, hst, hwr⟩ := h
        exact ⟨p, q, ic, iw, rfl, hks.symm, by rw [← hst, ← hks], hwr.symm,
          hcond.1, hcond.2⟩
      · rw [if_neg hcond] at h
        exact absurd h (by simp)

/-- The single-round test, for `n ≥ 4`, computes exactly the spec's decision:
probable-prime iff `a^q = 1 (mod n)` or `a^(2^j q) = n - 1 (mod n)` for some
`j` in `1 .. k-1` (where `n - 1 = 2^k q`, `q` odd), composite otherwise. -/
lemma millerRabinTest_eq_spec (n a : ℤ) (k : ℕ) (q : ℤ)
    (hn : 4 ≤ n) (hkq : n - 1 = 2 ^ k * q) (hq : q % 2 = 1) :
    (millerRabinTest n a = some (Except.ok Verdict.inconclusive) ↔
      (pyPow a q n = 1 ∨ ∃ j ∈ Finset.Ico 1 k, pyPow a (2 ^ j * q) n = n - 1)) ∧
    (millerRabinTest n a = some (Except.ok Verdict.composite) ↔
      ¬(pyPow a q n = 1 ∨ ∃ j ∈ Finset.Ico 1 k, pyPow a (2 ^ j * q) n = n - 1)) := by
  have h3 : n ≠ 3 := by omega
  have hfac : factorLoop 0 (n - 1) = some (0 + k, q) := by
    rw [hkq]; exact factorLoop_spec k 0 q hq
  have hbridge : ∀ j, j ∈ List.range' 1 (k - 1) ↔ j ∈ Finset.Ico 1 k := by
    intro j
    rw [List.mem_range'_1, Finset.mem_Ico]
    rcases Nat.eq_zero_or_pos k with hk | hk
    · subst hk
      simp only [Nat.zero_sub, List.range'_zero, List.not_mem_nil, Finset.mem_Ico]
      omega
    · omega
  by_cases h1 : pyPow a q n = 1
  · have hval : millerRabinTest n a = some (Except.ok Verdict.inconclusive) := by
      simp only [millerRabinTest, if_neg h3, hfac, Nat.zero_add]
      rw [if_neg (by omega : ¬n - 2 < 2), if_pos h1]
    rw [hval]
    constructor
    · exact ⟨fun _ => Or.inl h1, fun _ => rfl⟩
    · constructor
      · intro hcontra
        exact absurd hcontra (by simp)
      · intro hneg
        exact absurd (Or.inl h1) hneg
  · by_cases h2 : ∃ j ∈ Finset.Ico 1 k, pyPow a (2 ^ j * q) n = n - 1
    · have hany : ((List.range' 1 (k - 1)).any
          fun j => decide (pyPow a (2 ^ j * q) n = n - 1)) = true := by
        obtain ⟨j, hj, hjp⟩ := h2
        exact List.any_eq_true.mpr ⟨j, (hbridge j).mpr hj, by simpa using hjp⟩
      have hval : millerRabinTest n a = some (Except.ok Verdict.inconclusive) := by
        simp only [millerRabinTest, if_neg h3, hfac, Nat.zero_add]
        rw [if_neg (by omega : ¬n - 2 < 2), if_neg h1, if_pos hany]
      rw [hval]
      constructor
      · exact ⟨fun _ => Or.inr h2, fun _ => rfl⟩
      · constructor
        · intro hcontra
          exact absurd hcontra (by simp)
        · intro hneg
          exact absurd (Or.inr h2) hneg
    · have hany : ((List.range' 1 (k - 1)).any
          fun j => decide (pyPow a (2 ^ j * q) n = n - 1)) = false := by
        rw [List.any_eq_false]
        intro j hj
        simp only [decide_eq_true_eq]
        intro hc
        exact h2 ⟨j, (hbridge j).mp hj, hc⟩
      have hval : millerRabinTest n a = some (Except.ok Verdict.composite) := by
        simp only [millerRabinTest, if_neg h3, hfac, Nat.zero_add]
        rw [if_neg (by omega : ¬n - 2 < 2), if_neg h1,
          if_neg (by simp [hany])]
      rw [hval]
      constructor
      · constructor
        · intro hcontra
          exact absurd hcontra (by simp)
        · intro hor
          exact absurd hor (by
            rintro (hl | hr)
            · exact h1 hl
            · exact h2 hr)
      · exact ⟨fun _ => by
          rintro (hl | hr)
          · exact h1 hl
          · exact h2 hr, fun _ => rfl⟩

/-- For every `n < 4` other than 3 and 1, the randint range `[2, n-2]` is
empty and the test raises ValueError (after the halving loop terminates,
which it does for every `n` except 1). -/
lemma millerRabinTest_small (n a : ℤ) (hn : n < 4) (h3 : n ≠ 3) (h1 : n ≠ 1) :
    millerRabinTest n a = some (Except.error PyErr.valueError) := by
  obtain ⟨k2, q2, hfac⟩ := factorLoop_isSome (n - 1).natAbs 0 (n - 1) le_rfl
    (by omega)
  simp only [millerRabinTest, if_neg h3, hfac]
  rw [if_pos (by omega : n - 2 < 2)]

/-- C1: the Primality Tester is claimed one-sided: for prime `n ≥ 3` and any
witness `1 < a < n - 1`, `test(n)` never returns the composite verdict.  The
code violates this: its step-4 loop starts at `j = 1`, skipping the `j = 0`
check of Miller-Rabin, so any witness with `a^q = n - 1 (mod n)` is reported
composite even for prime `n`.  Concretely, 7 is prime, 3 is a valid witness
(1 < 3 < 6), and `test(7)` with drawn witness 3 returns composite. -/
theorem c1_composite_on_prime_seven :
    Nat.Prime 7 ∧ (1 : ℤ) < 3 ∧ (3 : ℤ) < 7 - 1 ∧
      millerRabinTest 7 3 = some (Except.ok Verdict.composite) :=
  ⟨by norm_num, by norm_num, by norm_num, rfl⟩

/-- C9 counterexample: the claim says every invalid candidate `n < 4`,
`n ≠ 3` fails explicitly with an error, but at `n = 1` the halving loop of
step 1 runs forever (`q = 0` stays even), so the source hangs and never
raises: the model returns `none` (nontermination), not an error verdict. -/
theorem c9_counterexample_hangs_on_one :
    millerRabinTest 1 2 = none ∧
      (none : Option (Except PyErr Verdict)) ≠
        some (Except.error PyErr.valueError) :=
  ⟨rfl, by simp⟩

/-- C9 amended: invoking the tester on any invalid `n < 4` other than 3
fails explicitly with ValueError -- except `n = 1`, where the factoring loop
diverges and no verdict or error is ever produced. -/
theorem c9_invalid_candidates :
    (∀ n a : ℤ, n < 4 → n ≠ 3 → n ≠ 1 →
      millerRabinTest n a = some (Except.error PyErr.valueError)) ∧
    (∀ a : ℤ, millerRabinTest 1 a = none) :=
  ⟨fun n a hn h3 h1 => millerRabinTest_small n a hn h3 h1, fun _ => rfl⟩

/-- C9 witness: the concrete invalid candidates 2 (explicit ValueError) and
1 (hang). -/
theorem c9_invalid_candidates_witness :
    millerRabinTest 2 5 = some (Except.error PyErr.valueError) ∧
      millerRabinTest 1 7 = none :=
  ⟨c9_invalid_candidates.1 2 5 (by norm_num) (by norm_num) (by norm_num),
    c9_invalid_candidates.2 7⟩

/-- C5: for every `n ≥ 4` the single round follows exactly the coded steps:
factor `n - 1 = 2^k q` (`q` odd) by repeated halving, then report
probable-prime iff the drawn witness `a` satisfies `a^q mod n = 1` or
`a^(2^j q) mod n = n - 1` for some `j` in `1 .. k-1`, otherwise composite;
and `test(3)` short-circuits to probable-prime consuming no witness draw. -/
theorem c5_test_follows_spec :
    (∀ (n a : ℤ) (k : ℕ) (q : ℤ), 4 ≤ n → n - 1 = 2 ^ k * q → q % 2 = 1 →
      (millerRabinTest n a = some (Except.ok Verdict.inconclusive) ↔
        (pyPow a q n = 1 ∨
          ∃ j ∈ Finset.Ico 1 k, pyPow a (2 ^ j * q) n = n - 1)) ∧
      (millerRabinTest n a = some (Except.ok Verdict.composite) ↔
        ¬(pyPow a q n = 1 ∨
          ∃ j ∈ Finset.Ico 1 k, pyPow a (2 ^ j * q) n = n - 1))) ∧
    (∀ (rw : ℕ → ℤ) (iw : ℕ),
      millerRabinTestSeq 3 rw iw = some (Except.ok (Verdict.inconclusive, iw))) :=
  ⟨fun n a k q hn hkq hq => millerRabinTest_eq_spec n a k q hn hkq hq,
    fun _ _ => rfl⟩

/-- C5 witness: `n = 7` with witness 2 (where `6 = 2^1 * 3` and
`2^3 mod 7 = 1`) is probable-prime, and `test(3)` short-circuits without
consuming a draw. -/
theorem c5_test_follows_spec_witness :
    millerRabinTest 7 2 = some (Except.ok Verdict.inconclusive) ∧
      millerRabinTestSeq 3 (fun _ => 5) 0 =
        some (Except.ok (Verdict.inconclusive, 0)) :=
  ⟨((c5_test_follows_spec.1 7 2 1 3 (by norm_num) (by norm_num)
      (by norm_num)).1).mpr (Or.inl (by decide)),
    c5_test_follows_spec.2 (fun _ => 5) 0⟩

/-- C10: for `p, q ≥ 2` coprime and any `c, d ≥ 0`, `crt_decrypt` returns a
value in `[0, p*q)`: `m2` lies in `[0, q)`, `h` lies in `[0, p)`, hence
`m = m2 + h*q < p*q`. -/
theorem c10_crt_range (p q c d : ℤ) (hp : 2 ≤ p) (hq : 2 ≤ q)
    (_hco : Int.gcd p q = 1) (_hc : 0 ≤ c) (_hd : 0 ≤ d) :
    0 ≤ crtDecrypt c d p q ∧ crtDecrypt c d p q < p * q := by
  have hp0 : (0 : ℤ) < p := by omega
  have hq0 : (0 : ℤ) < q := by omega
  have hshow : crtDecrypt c d p q = pyPow c (d % (q - 1)) q +
      (pyModInv q p * (pyPow c (d % (p - 1)) p - pyPow c (d % (q - 1)) q)) % p
        * q := rfl
  set m2 := pyPow c (d % (q - 1)) q with hm2def
  set hh := (pyModInv q p *
    (pyPow c (d % (p - 1)) p - pyPow c (d % (q - 1)) q)) % p with hhhdef
  have hm2eq : m2 = c ^ (d % (q - 1)).toNat % q := pyPow_eq c _ q hq0
  have hm20 : 0 ≤ m2 := by rw [hm2eq]; exact Int.emod_nonneg _ hq0.ne'
  have hm2lt : m2 < q := by rw [hm2eq]; exact Int.emod_lt_of_pos _ hq0
  have hh0 : 0 ≤ hh := Int.emod_nonneg _ hp0.ne'
  have hhlt : hh < p := Int.emod_lt_of_pos _ hp0
  rw [hshow]
  constructor
  · have := mul_nonneg hh0 hq0.le
    omega
  · have h1 : hh * q ≤ (p - 1) * q :=
      mul_le_mul_of_nonneg_right (by omega) hq0.le
    nlinarith

/-- C10 witness: concrete coprime moduli 3 and 5 with `c = 7`, `d = 4`. -/
theorem c10_crt_range_witness :
    0 ≤ crtDecrypt 7 4 3 5 ∧ crtDecrypt 7 4 3 5 < 3 * 5 :=
  c10_crt_range 3 5 7 4 (by norm_num) (by norm_num) (by decide)
    (by norm_num) (by norm_num)

/-- C2 counterexample: the claim quantifies over every key pair with `p`, `q`
distinct primes, but it fails when a prime equals 2.  With `p = 2`, `q = 7`,
`e = d = 5` (`5 * 5 = 25 = 1 (mod 6)`, and `1 < 5 < 6`), and ciphertext
`c = 2` in `[0, 14)`: `dp = 5 mod 1 = 0`, so `m1 = 2^0 mod 2 = 1` while
`2^5 mod 2 = 0`, and `crt_decrypt` returns 11 whereas `pow(c, d, n)` is 4. -/
theorem c2_counterexample :
    Nat.Prime 2 ∧ Nat.Prime 7 ∧ (2 : ℕ) ≠ 7 ∧
      (5 * 5 : ℤ) % (((2 : ℤ) - 1) * ((7 : ℤ) - 1)) = 1 ∧
      (1 : ℤ) < 5 ∧ (5 : ℤ) < ((2 : ℤ) - 1) * ((7 : ℤ) - 1) ∧
      (0 : ℤ) ≤ 2 ∧ (2 : ℤ) < 2 * 7 ∧
      crtDecrypt 2 5 2 7 = 11 ∧ pyPow 2 5 (2 * 7) = 4 ∧
      crtDecrypt 2 5 2 7 ≠ pyPow 2 5 (2 * 7) := by
  refine ⟨by norm_num, by norm_num, by norm_num, by norm_num, by norm_num,
    by norm_num, by norm_num, by norm_num, rfl, rfl, ?_⟩
  intro h
  rw [show crtDecrypt 2 5 2 7 = 11 from rfl,
    show pyPow 2 5 (2 * 7) = 4 from rfl] at h
  exact absurd h (by norm_num)

/-- C2 amended: for every RSA key pair whose primes are distinct and both
odd (greater than 2), with `d` the modular inverse of `e` mod
`(p-1)*(q-1)`, and every ciphertext `0 ≤ c < p*q`,
`crt_decrypt(c, d, p, q)` equals direct decryption `pow(c, d, p*q)`.
(The original claim, which also admits the prime 2, is refuted by
`c2_counterexample`.) -/
theorem c2_crt_equals_direct (P Q : ℕ) (hp : Nat.Prime P) (hq : Nat.Prime Q)
    (hP2 : 2 < P) (hQ2 : 2 < Q) (hne : P ≠ Q) (e d c : ℤ) (hd : 0 ≤ d)
    (hed : (e * d) % (((P : ℤ) - 1) * ((Q : ℤ) - 1)) = 1)
    (hc0 : 0 ≤ c) (hcN : c < (P : ℤ) * Q) :
    crtDecrypt c d (P : ℤ) (Q : ℤ) = pyPow c d ((P : ℤ) * (Q : ℤ)) := by
  have hPz : (2 : ℤ) < (P : ℤ) := by exact_mod_cast hP2
  have hQz : (2 : ℤ) < (Q : ℤ) := by exact_mod_cast hQ2
  have hphi : (1 : ℤ) < ((P : ℤ) - 1) * ((Q : ℤ) - 1) := by nlinarith
  have hed2 : e * d ≡ 1 [ZMOD ((P : ℤ) - 1) * ((Q : ℤ) - 1)] := by
    show e * d % _ = 1 % _
    rw [hed, Int.emod_eq_of_lt (by norm_num) hphi]
  exact crt_core P Q hp hq hP2 hQ2 hne e d c hd hed2 hc0 hcN

/-- C2 witness: the spec's textbook key pair `p = 61`, `q = 53`, `e = 17`,
`d = 2753` and the ciphertext `c = 2790` of plaintext 65. -/
theorem c2_crt_equals_direct_witness :
    crtDecrypt 2790 2753 (61 : ℤ) 53 = pyPow 2790 2753 (61 * 53 : ℤ) := by
  have h := c2_crt_equals_direct 61 53 (by norm_num) (by norm_num)
    (by norm_num) (by norm_num) (by norm_num) 17 2753 2790 (by norm_num)
    (by norm_num) (by norm_num) (by norm_num)
  norm_num at h
  exact h

/-- C3: for every key pair a fresh `generate_keys` run produces, if its two
stored factors are distinct primes, then direct decryption inverts
encryption: `pow(pow(m, e, n), d, n) = m` for every plaintext `0 ≤ m < n`.
(Primality is hypothesised, not guaranteed, by the probabilistic search.) -/
theorem c3_roundtrip (rc rw : ℕ → ℤ) (fuel : ℕ) (ks : RSAKeys)
    (st : Option RSAKeys) (wr : ℕ)
    (hrun : generateKeys none rc rw fuel = some (Except.ok (ks, st, wr)))
    (P Q : ℕ) (hPp : ks.p = (P : ℤ)) (hQq : ks.q = (Q : ℤ))
    (hp : Nat.Prime P) (hq : Nat.Prime Q) (hne : P ≠ Q)
    (m : ℤ) (hm0 : 0 ≤ m) (hmN : m < ks.n) :
    pyPow (pyPow m ks.e ks.n) ks.d ks.n = m := by
  obtain ⟨p, q, ic, iw, hgen, hks, hst, hwr, hphigt, hgcd⟩ :=
    generateKeys_fresh rc rw fuel ks st wr hrun
  subst hks
  have hpP : p = (P : ℤ) := hPp
  have hqQ : q = (Q : ℤ) := hQq
  subst hpP
  subst hqQ
  have hmN2 : m < (P : ℤ) * Q := hmN
  have hphipos : (0 : ℤ) < ((P : ℤ) - 1) * ((Q : ℤ) - 1) := by linarith
  have hd0 : 0 ≤ pyModInv 65337 (((P : ℤ) - 1) * ((Q : ℤ) - 1)) :=
    pyModInv_nonneg _ _ hphipos
  have hed : (65337 : ℤ) * pyModInv 65337 (((P : ℤ) - 1) * ((Q : ℤ) - 1)) ≡ 1
      [ZMOD ((P : ℤ) - 1) * ((Q : ℤ) - 1)] :=
    pyModInv_coprime_mul 65337 _ (by norm_num) hphipos hgcd
  exact rsa_core P Q hp hq hne 65337 _ m (by norm_num) hd0 hed hm0 hmN2

/-- C3 witness: the fresh run on candidates 563, 569 stores
`n = 320347`, `e = 65337`, `d = 119113`; plaintext 65 round-trips. -/
theorem c3_roundtrip_witness :
    pyPow (pyPow 65 65337 320347) 119113 320347 = 65 :=
  c3_roundtrip rcOkPhi rwOkPhi 2 ⟨65337, 320347, 119113, 563, 569⟩
    (some ⟨65337, 320347, 119113, 563, 569⟩) 1 rfl 563 569 rfl rfl
    (by norm_num) (by norm_num) (by norm_num) 65 (by norm_num) (by decide)

/-- C6: on a fresh `generate_keys` run whose prime generation succeeded with
primes `p`, `q`, the run fails with the configuration (assert) error exactly
when the fixed exponent 65337 violates `1 < e < phi(n)` or
`gcd(e, phi(n)) = 1`; when the check passes, derivation proceeds to a
successful, stored key pair and the failure branch is not taken. -/
theorem c6_exponent_check (rc rw : ℕ → ℤ) (fuel : ℕ) (p q : ℤ) (ic iw : ℕ)
    (hgen : genPrimesLoop rc rw fuel 0 0 none none =
      some (Except.ok ((p, q), ic, iw))) :
    (generateKeys none rc rw fuel = some (Except.error PyErr.assertionError) ↔
      ¬(1 < (65337 : ℤ) ∧ 65337 < (p - 1) * (q - 1) ∧
        Int.gcd 65337 ((p - 1) * (q - 1)) = 1)) ∧
    ((1 < (65337 : ℤ) ∧ 65337 < (p - 1) * (q - 1) ∧
        Int.gcd 65337 ((p - 1) * (q - 1)) = 1) →
      ∃ ks : RSAKeys,
        generateKeys none rc rw fuel = some (Except.ok (ks, some ks, 1))) := by
  by_cases hcond : 65337 < (p - 1) * (q - 1) ∧
      Int.gcd 65337 ((p - 1) * (q - 1)) = 1
  · have hval : generateKeys none rc rw fuel = some (Except.ok
        (⟨65337, p * q, pyModInv 65337 ((p - 1) * (q - 1)), p, q⟩,
          some ⟨65337, p * q, pyModInv 65337 ((p - 1) * (q - 1)), p, q⟩, 1)) := by
      simp only [generateKeys, generatePrimes, hgen]
      rw [if_pos ⟨by norm_num, hcond.1, hcond.2⟩]
    rw [hval]
    constructor
    · constructor
      · intro h
        exact absurd h (by simp)
      · intro hneg
        exact absurd ⟨by norm_num, hcond.1, hcond.2⟩ hneg
    · intro _
      exact ⟨_, rfl⟩
  · have hval : generateKeys none rc rw fuel =
        some (Except.error PyErr.assertionError) := by
      simp only [generateKeys, generatePrimes, hgen]
      rw [if_neg (by
        rintro ⟨_, h2, h3⟩
        exact hcond ⟨h2, h3⟩)]
    rw [hval]
    constructor
    · constructor
      · intro _
        rintro ⟨_, h2, h3⟩
        exact hcond ⟨h2, h3⟩
      · intro _
        rfl
    · rintro ⟨_, h2, h3⟩
      exact absurd ⟨h2, h3⟩ hcond

/-- C6 witness: the 7-and-11 run has `phi = 60 < 65337` and fails the
assert; the 563-and-569 run has `phi = 319216` coprime to 65337 and
succeeds. -/
theorem c6_exponent_check_witness :
    generateKeys none rcSmallPhi rwSmallPhi 2 =
      some (Except.error PyErr.assertionError) ∧
    ∃ ks : RSAKeys, generateKeys none rcOkPhi rwOkPhi 2 =
      some (Except.ok (ks, some ks, 1)) :=
  ⟨(c6_exponent_check rcSmallPhi rwSmallPhi 2 7 11 2 14 rfl).1.mpr (by decide),
    (c6_exponent_check rcOkPhi rwOkPhi 2 563 569 2 14 rfl).2 (by decide)⟩

/-- C7: generation is idempotent with respect to the persisted store.  A
persisted pair is returned unchanged with no write; and whatever store a
successful call leaves behind, a second call against it returns the same
keys, leaves the store unchanged, performs no write -- while the first call
wrote at most once. -/
theorem c7_idempotent :
    (∀ (ks : RSAKeys) (rc rw : ℕ → ℤ) (fuel : ℕ),
      generateKeys (some ks) rc rw fuel = some (Except.ok (ks, some ks, 0))) ∧
    (∀ (s0 : Option RSAKeys) (rc rw : ℕ → ℤ) (fuel : ℕ) (ks : RSAKeys)
        (st : Option RSAKeys) (wr : ℕ) (rc2 rw2 : ℕ → ℤ) (fuel2 : ℕ),
      generateKeys s0 rc rw fuel = some (Except.ok (ks, st, wr)) →
      generateKeys st rc2 rw2 fuel2 = some (Except.ok (ks, st, 0)) ∧ wr ≤ 1) := by
  constructor
  · intro ks rc rw fuel
    rfl
  · intro s0 rc rw fuel ks st wr rc2 rw2 fuel2 h
    cases s0 with
    | some k =>
      have h2 : k = ks ∧ some k = st ∧ 0 = wr := by
        have h3 : (some (Except.ok (k, some k, 0)) :
            Option (Except PyErr (RSAKeys × Option RSAKeys × ℕ))) =
            some (Except.ok (ks, st, wr)) := h
        simpa using h3
      obtain ⟨hk, hst, hwr⟩ := h2
      subst hk
      rw [← hst]
      exact ⟨rfl, by omega⟩
    | none =>
      obtain ⟨p, q, ic, iw, hgen, hks, hst, hwr, _, _⟩ :=
        generateKeys_fresh rc rw fuel ks st wr h
      subst hst
      exact ⟨rfl, by omega⟩

/-- C7 witness: with the toy key pair persisted, two consecutive calls (with
different streams and fuel) both return it unchanged with no write. -/
theorem c7_idempotent_witness :
    generateKeys (some toyKeys) rcSmallPhi rwSmallPhi 2 =
      some (Except.ok (toyKeys, some toyKeys, 0)) ∧
    (generateKeys (some toyKeys) rcOkPhi rwOkPhi 5 =
      some (Except.ok (toyKeys, some toyKeys, 0)) ∧ 0 ≤ 1) :=
  ⟨c7_idempotent.1 toyKeys rcSmallPhi rwSmallPhi 2,
    c7_idempotent.2 (some toyKeys) rcSmallPhi rwSmallPhi 2 toyKeys
      (some toyKeys) 0 rcOkPhi rwOkPhi 5
      (c7_idempotent.1 toyKeys rcSmallPhi rwSmallPhi 2)⟩

/-- C8: on a fresh run (no persisted parameter file) whose candidate draws
all lie in the `randint(2^1023 + 1, 2^1024 - 1)` range, every value
`generate_primes` returns is odd, lies in that range, and underwent exactly
seven Miller-Rabin rounds with no composite verdict (the `sevenTests` run
recorded in `GoodPrime`). -/
theorem c8_generate_primes_output (rc rw : ℕ → ℤ) (fuel : ℕ) (p q : ℤ)
    (jc jw : ℕ)
    (hrc : ∀ i, 2 ^ 1023 + 1 ≤ rc i ∧ rc i ≤ 2 ^ 1024 - 1)
    (h : generatePrimes none rc rw fuel = some (Except.ok ((p, q), jc, jw))) :
    GoodPrime rw p ∧ GoodPrime rw q := by
  have h2 : genPrimesLoop rc rw fuel 0 0 none none =
      some (Except.ok ((p, q), jc, jw)) := h
  exact genPrimesLoop_good rc rw hrc fuel 0 0 none none p q jc jw
    (fun x hx => by cases hx) (fun x hx => by cases hx) h2

set_option maxRecDepth 8000 in
/-- C8 witness: the all-`bigCandidate` candidate stream (every draw in
range) with constant witness 4 terminates and both returned values satisfy
the contract. -/
theorem c8_generate_primes_output_witness :
    GoodPrime rwRepeat bigCandidate ∧ GoodPrime rwRepeat bigCandidate := by
  have hb : (2 : ℤ) ^ 1023 + 1 ≤ bigCandidate ∧
      bigCandidate ≤ 2 ^ 1024 - 1 := by
    constructor <;> norm_num [bigCandidate]
  exact c8_generate_primes_output rcRepeat rwRepeat 2 bigCandidate
    bigCandidate 2 14 (fun _ => hb) rfl

set_option maxRecDepth 8000 in
/-- C4: the claim says the Key Generator retries until the two primes
differ, so `generate_primes` never returns equal values.  The code has no
such retry: on the draw sequence that draws the (valid, in-range, odd)
candidate `bigCandidate` twice, each time passing all seven witness rounds
with the valid witness 4, `generate_primes` returns the pair
`(bigCandidate, bigCandidate)` with both components equal. -/
theorem c4_equal_primes_run :
    (2 : ℤ) ^ 1023 + 1 ≤ bigCandidate ∧ bigCandidate ≤ 2 ^ 1024 - 1 ∧
    bigCandidate % 2 = 1 ∧ (2 : ℤ) ≤ 4 ∧ (4 : ℤ) ≤ bigCandidate - 2 ∧
    generatePrimes none rcRepeat rwRepeat 2 =
      some (Except.ok ((bigCandidate, bigCandidate), 2, 14)) :=
  ⟨by norm_num [bigCandidate], by norm_num [bigCandidate], by decide,
    by norm_num, by norm_num [bigCandidate], rfl⟩
